import Mathlib

/-!
# Verification of the ccmchain contract-call binary codec (ABI package)

This file gives a shallow embedding of the `accounts/abi` package of the
ccmchain repository and proves the specified properties about it.

The visible source files embed directly:
* `accounts/abi/abi.go` — the `ABI` registry (`Pack`, `Unpack`,
  `UnpackIntoMap`, `UnmarshalJSON`, `MccmodById`);
* the `Mccmod` descriptor with its `Sig`, `String` and `Id` functions.

The argument encoder/decoder (`Arguments.Pack` / `Arguments.Unpack`), the
type descriptor with its canonicalization, and the type-string parser are
part of the repository but not among the visible sources; those components
are modelled from the specification (sections 3, 4.1, 4.2, 4.3), and each
such definition is marked `Modelled from the spec`.

Bytes are modelled as `List Nat` (entries `< 256` where it matters),
arbitrary-precision integers as `Nat` / `Int`, and the injected
cryptographic hash `hash256` as an explicit function parameter
`h : List Nat → List Nat`.
-/

set_option maxRecDepth 8000

namespace CcmAbi

/-! ## Byte-level primitives -/

/-- Big-endian base-256 digits of `n`, exactly `k` bytes (most significant
first), i.e. the 32-byte words of the wire format when `k = 32`. -/
def beBytes : Nat → Nat → List Nat
  | 0, _ => []
  | k + 1, n => beBytes k (n / 256) ++ [n % 256]

/-- Value of a big-endian byte string. -/
def beVal (bs : List Nat) : Nat :=
  bs.foldl (fun acc b => acc * 256 + b) 0

/-- One 32-byte big-endian word of the wire format. -/
def word32 (n : Nat) : List Nat := beBytes 32 n

/-- Pad a byte string with trailing zeros to the next 32-byte boundary. -/
def padRight (bs : List Nat) : List Nat :=
  bs ++ List.replicate ((32 - bs.length % 32) % 32) 0

/-- Read `n` bytes of `data` starting at `pos`; fails when the range does
not fit inside `data`. -/
def readBytes (data : List Nat) (pos n : Nat) : Option (List Nat) :=
  if pos + n ≤ data.length then some ((data.drop pos).take n) else none

/-- Read the 32-byte big-endian word at `pos`. -/
def readWord (data : List Nat) (pos : Nat) : Option Nat :=
  (readBytes data pos 32).map beVal

theorem beBytes_length (k n : Nat) : (beBytes k n).length = k := by
  induction k generalizing n with
  | zero => simp [beBytes]
  | succ k ih => simp [beBytes, ih]

theorem beVal_append_singleton (bs : List Nat) (b : Nat) :
    beVal (bs ++ [b]) = beVal bs * 256 + b := by
  simp [beVal, List.foldl_append]

theorem beVal_beBytes (k n : Nat) : beVal (beBytes k n) = n % 256 ^ k := by
  induction k generalizing n with
  | zero => simp [beBytes, beVal, Nat.mod_one]
  | succ k ih =>
    rw [beBytes, beVal_append_singleton, ih]
    have hpow : (256 : Nat) ^ (k + 1) = 256 * 256 ^ k := by
      rw [pow_succ]; ring
    rw [hpow, Nat.mod_mul]
    ring

theorem word32_length (n : Nat) : (word32 n).length = 32 := beBytes_length 32 n

theorem beVal_word32 (n : Nat) (h : n < 2 ^ 256) : beVal (word32 n) = n := by
  have h256 : (256 : Nat) ^ 32 = 2 ^ 256 := by norm_num
  rw [word32, beVal_beBytes, h256, Nat.mod_eq_of_lt h]

theorem readBytes_append (pre mid post : List Nat) :
    readBytes (pre ++ (mid ++ post)) pre.length mid.length = some mid := by
  unfold readBytes
  rw [if_pos (by simp only [List.length_append]; omega)]
  congr 1
  rw [List.drop_left, List.take_left]

theorem readWord_append (pre post : List Nat) (x : Nat) (hx : x < 2 ^ 256) :
    readWord (pre ++ (word32 x ++ post)) pre.length = some x := by
  unfold readWord
  have h := readBytes_append pre (word32 x) post
  rw [word32_length] at h
  rw [h]
  simp [beVal_word32 x hx]

theorem padRight_mod (bs : List Nat) : (padRight bs).length % 32 = 0 := by
  simp only [padRight, List.length_append, List.length_replicate]
  omega

/-! ## The Type descriptor (spec §3, §4.1)

Modelled from the spec: the closed, recursive variant of encodable types.
Tuple components keep only the component types: component names never
enter the canonical string, the wire layout, nor the signature. -/

inductive AbiType where
  | uintT : Nat → AbiType
  | intT : Nat → AbiType
  | addressT : AbiType
  | boolT : AbiType
  | fixedBytesT : Nat → AbiType
  | bytesT : AbiType
  | stringT : AbiType
  | tupleT : List AbiType → AbiType
  | fixedArrayT : AbiType → Nat → AbiType
  | sliceT : AbiType → AbiType
  deriving Repr

/-- Concrete values, one constructor per family of `AbiType`.  Byte
sequences (also address payloads and Go strings, which are raw byte
sequences) are `List Nat`. -/
inductive Value where
  | vuint : Nat → Value
  | vint : Int → Value
  | vaddr : List Nat → Value
  | vbool : Bool → Value
  | vfixedBytes : List Nat → Value
  | vbytes : List Nat → Value
  | vstring : List Nat → Value
  | vtuple : List Value → Value
  | varray : List Value → Value
  deriving Repr

mutual

/-- Modelled from the spec: a type is dynamic iff it is `DynamicBytes`,
`String`, `DynamicArray`, or a `Tuple`/`FixedArray` containing at least one
dynamic member, transitively. -/
def isDynamic : AbiType → Bool
  | .bytesT => true
  | .stringT => true
  | .sliceT _ => true
  | .tupleT comps => anyDynamic comps
  | .fixedArrayT e n => decide (0 < n) && isDynamic e
  | _ => false

def anyDynamic : List AbiType → Bool
  | [] => false
  | t :: ts => isDynamic t || anyDynamic ts

end

mutual

/-- Number of bytes a static type occupies in place (spec §3: one 32-byte
word per scalar, concatenation of member words for static compounds).
Meaningful only on static types. -/
def staticSize : AbiType → Nat
  | .tupleT comps => staticSizeList comps
  | .fixedArrayT e n => n * staticSize e
  | _ => 32

def staticSizeList : List AbiType → Nat
  | [] => 0
  | t :: ts => staticSize t + staticSizeList ts

end

/-- Bytes one argument occupies in the head region: 32 for a dynamic type
(the offset word), the full in-place size for a static type. -/
def headLen (t : AbiType) : Nat := if isDynamic t then 32 else staticSize t

/-- Total head length of an argument sequence. -/
def headsLen : List AbiType → Nat
  | [] => 0
  | t :: ts => headLen t + headsLen ts

mutual

/-- Modelled from the spec: type well-formedness as enforced by the schema
parser (§4.1): integer widths are nonzero multiples of 8 up to 256, fixed
byte lengths lie in `1..32`. -/
def wfType : AbiType → Bool
  | .uintT b => decide (0 < b) && decide (b ≤ 256) && decide (b % 8 = 0)
  | .intT b => decide (0 < b) && decide (b ≤ 256) && decide (b % 8 = 0)
  | .fixedBytesT n => decide (0 < n) && decide (n ≤ 32)
  | .tupleT comps => wfSeq comps
  | .fixedArrayT e _ => wfType e
  | .sliceT e => wfType e
  | _ => true

def wfSeq : List AbiType → Bool
  | [] => true
  | t :: ts => wfType t && wfSeq ts

end

mutual

/-- Modelled from the spec: value/type compatibility (§4.2 input contract):
integers within the declared width, addresses of 20 bytes, fixed bytes of
the declared length, byte entries below 256, and lengths representable in
one 32-byte length word. -/
def typeCheck : AbiType → Value → Bool
  | .uintT bits, .vuint n => decide (n < 2 ^ bits)
  | .intT bits, .vint i => decide (-(2 ^ (bits - 1) : Int) ≤ i) && decide (i < (2 ^ (bits - 1) : Int))
  | .addressT, .vaddr bs => decide (bs.length = 20) && bs.all (fun b => decide (b < 256))
  | .boolT, .vbool _ => true
  | .fixedBytesT n, .vfixedBytes bs => decide (bs.length = n) && bs.all (fun b => decide (b < 256))
  | .bytesT, .vbytes bs => bs.all (fun b => decide (b < 256)) && decide (bs.length < 2 ^ 256)
  | .stringT, .vstring bs => bs.all (fun b => decide (b < 256)) && decide (bs.length < 2 ^ 256)
  | .tupleT comps, .vtuple vs => typeCheckSeq comps vs
  | .fixedArrayT e n, .varray vs => decide (vs.length = n) && typeCheckSeq (List.replicate vs.length e) vs
  | .sliceT e, .varray vs => decide (vs.length < 2 ^ 256) && typeCheckSeq (List.replicate vs.length e) vs
  | _, _ => false

def typeCheckSeq : List AbiType → List Value → Bool
  | [], [] => true
  | t :: ts, v :: vs => typeCheck t v && typeCheckSeq ts vs
  | _, _ => false

end

/-! ## Encoder (spec §4.2)

Modelled from the spec: the recursive head/tail encoding.  A sequence of
arguments is encoded as a head region (one slot per argument: the in-place
bytes for a static argument, a 32-byte big-endian offset for a dynamic
one, the offset counting from the start of the sequence's block) followed
by a tail region holding the dynamic payloads in argument order. -/

/-- Helper for lexicographic termination measures. -/
theorem lexHelperLe {a c b d : Nat} (h1 : a ≤ c) (h2 : b < d) :
    Prod.Lex (fun x y : Nat => x < y) (fun x y : Nat => x < y) (a, b) (c, d) := by
  rcases Nat.lt_or_ge a c with h | h
  · exact Prod.Lex.left _ _ h
  · have hac : a = c := Nat.le_antisymm h1 h
    subst hac
    exact Prod.Lex.right _ h2

/-- Helper for lexicographic termination measures, first component strict. -/
theorem lexHelperLt {a c b d : Nat} (h1 : a < c) :
    Prod.Lex (fun x y : Nat => x < y) (fun x y : Nat => x < y) (a, b) (c, d) :=
  Prod.Lex.left _ _ h1

mutual

/-- Modelled from the spec (§4.2): the standalone encoding of one value. -/
def encodeValue : AbiType → Value → List Nat
  | .uintT _, .vuint n => word32 n
  | .intT _, .vint i => word32 (i % ((2 : Int) ^ 256)).toNat
  | .addressT, .vaddr bs => List.replicate 12 0 ++ bs
  | .boolT, .vbool b => word32 (if b then 1 else 0)
  | .fixedBytesT n, .vfixedBytes bs => bs ++ List.replicate (32 - n) 0
  | .bytesT, .vbytes bs => word32 bs.length ++ padRight bs
  | .stringT, .vstring bs => word32 bs.length ++ padRight bs
  | .tupleT comps, .vtuple vs => encodeSeq comps vs
  | .fixedArrayT e _, .varray vs => encodeSeq (List.replicate vs.length e) vs
  | .sliceT e, .varray vs => word32 vs.length ++ encodeSeq (List.replicate vs.length e) vs
  | _, _ => []

/-- Modelled from the spec (§4.2): the head/tail block of an argument
sequence. -/
def encodeSeq (ts : List AbiType) (vs : List Value) : List Nat :=
  encHeads (headsLen ts) 0 ts vs ++ encTails ts vs

/-- The head region: `H` is the total head length of the block, `tpre` the
number of tail bytes already emitted for earlier arguments. -/
def encHeads (H tpre : Nat) : List AbiType → List Value → List Nat
  | t :: ts, v :: vs =>
      if isDynamic t then
        word32 (H + tpre) ++ encHeads H (tpre + (encodeValue t v).length) ts vs
      else
        encodeValue t v ++ encHeads H tpre ts vs
  | _, _ => []

/-- The tail region: the concatenated encodings of the dynamic arguments. -/
def encTails : List AbiType → List Value → List Nat
  | t :: ts, v :: vs => (if isDynamic t then encodeValue t v else []) ++ encTails ts vs
  | _, _ => []

end

/-! ## Decoder (spec §4.3)

Modelled from the spec: read one head slot per argument; a static argument
is decoded in place, a dynamic one through its offset into the block. -/

/-- Two's-complement reading of a 256-bit word (spec §4.2: integers are
32-byte two's-complement big-endian words). -/
def intFromWord (w : Nat) : Int :=
  if w < 2 ^ 255 then (w : Int) else (w : Int) - 2 ^ 256

mutual

/-- Nesting depth of a type, the termination measure of the decoder. -/
def rank : AbiType → Nat
  | .tupleT comps => rankList comps + 1
  | .fixedArrayT e _ => rank e + 1
  | .sliceT e => rank e + 1
  | _ => 0

/-- Maximum rank of a list of types. -/
def rankList : List AbiType → Nat
  | [] => 0
  | t :: ts => max (rank t) (rankList ts)

end

theorem rankList_replicate (n : Nat) (e : AbiType) :
    rankList (List.replicate n e) ≤ rank e := by
  induction n with
  | zero => simp [rankList]
  | succ n ih => simp [List.replicate, rankList]; omega

mutual

/-- Modelled from the spec (§4.3): decode an argument sequence whose block
is `block`, reading head slots from position `h` on. -/
def decodeSeq : List AbiType → List Nat → Nat → Option (List Value)
  | [], _, _ => some []
  | t :: ts, block, h =>
    match decodeArg t block h, decodeSeq ts block (h + headLen t) with
    | some v, some vs => some (v :: vs)
    | _, _ => none
termination_by ts _ _ => (rankList ts, ts.length)
decreasing_by
  · apply lexHelperLe
    · simp [rankList]
    · simp
  · apply lexHelperLe
    · simp [rankList]
    · simp

/-- Modelled from the spec (§4.3): decode the argument whose head slot is
at position `h` of `block`; dynamic arguments follow their offset. -/
def decodeArg : AbiType → List Nat → Nat → Option Value
  | .uintT _, block, h => (readWord block h).map .vuint
  | .intT _, block, h =>
      (readWord block h).map fun w => .vint (intFromWord w)
  | .addressT, block, h => (readBytes block h 32).map fun bs => .vaddr (bs.drop 12)
  | .boolT, block, h =>
      match readWord block h with
      | some 0 => some (.vbool false)
      | some 1 => some (.vbool true)
      | _ => none
  | .fixedBytesT n, block, h => (readBytes block h 32).map fun bs => .vfixedBytes (bs.take n)
  | .bytesT, block, h =>
      match readWord block h with
      | some off =>
        match readWord (block.drop off) 0 with
        | some n => (readBytes (block.drop off) 32 n).map .vbytes
        | none => none
      | none => none
  | .stringT, block, h =>
      match readWord block h with
      | some off =>
        match readWord (block.drop off) 0 with
        | some n => (readBytes (block.drop off) 32 n).map .vstring
        | none => none
      | none => none
  | .sliceT e, block, h =>
      match readWord block h with
      | some off =>
        match readWord (block.drop off) 0 with
        | some n => (decodeSeq (List.replicate n e) ((block.drop off).drop 32) 0).map .varray
        | none => none
      | none => none
  | .tupleT comps, block, h =>
      if isDynamic (.tupleT comps) then
        match readWord block h with
        | some off => (decodeSeq comps (block.drop off) 0).map .vtuple
        | none => none
      else (decodeSeq comps block h).map .vtuple
  | .fixedArrayT e n, block, h =>
      if isDynamic (.fixedArrayT e n) then
        match readWord block h with
        | some off => (decodeSeq (List.replicate n e) (block.drop off) 0).map .varray
        | none => none
      else (decodeSeq (List.replicate n e) block h).map .varray
termination_by t _ _ => (rank t, 0)
decreasing_by
  all_goals apply lexHelperLt
  all_goals simp [rank]
  all_goals have := rankList_replicate
  · exact Nat.lt_succ_of_le (rankList_replicate _ _)
  · exact Nat.lt_succ_of_le (rankList_replicate _ _)
  · exact Nat.lt_succ_of_le (rankList_replicate _ _)

end

/-! ## Length and shape lemmas about the encoder -/

theorem drop_append_len (A R : List Nat) (n : Nat) (h : A.length = n) :
    (A ++ R).drop n = R := by
  subst h
  exact List.drop_left A R

theorem encTails_allStatic (ts : List AbiType) (vs : List Value)
    (h : anyDynamic ts = false) : encTails ts vs = [] := by
  induction ts generalizing vs with
  | nil => cases vs <;> simp [encTails]
  | cons t ts ih =>
    cases vs with
    | nil => simp [encTails]
    | cons v vs =>
      simp only [anyDynamic, Bool.or_eq_false_iff] at h
      simp [encTails, h.1, ih vs h.2]

theorem encHeads_indep (ts : List AbiType) (vs : List Value)
    (h : anyDynamic ts = false) (H a H' a' : Nat) :
    encHeads H a ts vs = encHeads H' a' ts vs := by
  induction ts generalizing vs with
  | nil => cases vs <;> simp [encHeads]
  | cons t ts ih =>
    cases vs with
    | nil => simp [encHeads]
    | cons v vs =>
      simp only [anyDynamic, Bool.or_eq_false_iff] at h
      simp [encHeads, h.1, ih vs h.2]

theorem anyDynamic_replicate (n : Nat) (e : AbiType) (h : isDynamic e = false) :
    anyDynamic (List.replicate n e) = false := by
  induction n with
  | zero => simp [anyDynamic]
  | succ n ih => simp [List.replicate, anyDynamic, h, ih]

theorem headsLen_replicate (n : Nat) (e : AbiType) :
    headsLen (List.replicate n e) = n * headLen e := by
  induction n with
  | zero => simp [headsLen]
  | succ n ih => simp [List.replicate, headsLen, ih]; ring

theorem headsLen_allStatic (ts : List AbiType) (h : anyDynamic ts = false) :
    headsLen ts = staticSizeList ts := by
  induction ts with
  | nil => simp [headsLen, staticSizeList]
  | cons t ts ih =>
    simp only [anyDynamic, Bool.or_eq_false_iff] at h
    simp [headsLen, staticSizeList, headLen, h.1, ih h.2]

theorem wfSeq_replicate (n : Nat) (e : AbiType) (h : wfType e = true) :
    wfSeq (List.replicate n e) = true := by
  induction n with
  | zero => simp [wfSeq]
  | succ n ih => simp [List.replicate, wfSeq, h, ih]

mutual

/-- A static, well-typed value encodes to exactly its static size. -/
theorem encodeValue_length_static (t : AbiType) (v : Value)
    (hd : isDynamic t = false) (htc : typeCheck t v = true)
    (hwf : wfType t = true) :
    (encodeValue t v).length = staticSize t := by
  cases t with
  | uintT bits =>
    cases v <;> simp [typeCheck] at htc
    simp [encodeValue, staticSize, word32_length]
  | intT bits =>
    cases v <;> simp [typeCheck] at htc
    simp [encodeValue, staticSize, word32_length]
  | addressT =>
    cases v <;> simp [typeCheck] at htc
    simp [encodeValue, staticSize, htc.1]
  | boolT =>
    cases v <;> simp [typeCheck] at htc
    simp [encodeValue, staticSize, word32_length]
  | fixedBytesT n =>
    cases v <;> simp [typeCheck] at htc
    simp only [wfType, Bool.and_eq_true, decide_eq_true_eq] at hwf
    simp [encodeValue, staticSize, htc.1]
    omega
  | bytesT => simp [isDynamic] at hd
  | stringT => simp [isDynamic] at hd
  | sliceT e => simp [isDynamic] at hd
  | tupleT comps =>
    cases v <;> simp [typeCheck] at htc
    case vtuple vs =>
    simp only [isDynamic] at hd
    simp only [wfType] at hwf
    rw [encodeValue, encodeSeq, List.length_append,
      encTails_allStatic comps vs hd, List.length_nil,
      encHeads_length comps vs htc hwf _ _,
      staticSize, ← headsLen_allStatic comps hd]
    omega
  | fixedArrayT e n =>
    cases v <;> simp [typeCheck] at htc
    case varray vs =>
    simp only [wfType] at hwf
    obtain ⟨hlen, htc2⟩ := htc
    have hall : anyDynamic (List.replicate vs.length e) = false := by
      rcases Nat.eq_zero_or_pos n with hz | hp
      · rw [hlen, hz]
        simp [anyDynamic]
      · have : isDynamic e = false := by
          simp only [isDynamic, Bool.and_eq_false_iff] at hd
          rcases hd with hd | hd
          · simp at hd; omega
          · exact hd
        exact anyDynamic_replicate _ _ this
    rw [encodeValue, encodeSeq, List.length_append,
      encTails_allStatic _ vs hall, List.length_nil,
      encHeads_length _ vs htc2 (wfSeq_replicate _ _ hwf) _ _,
      headsLen_replicate, staticSize, hlen]
    have : isDynamic e = false ∨ vs.length = 0 := by
      simp only [isDynamic, Bool.and_eq_false_iff] at hd
      rcases hd with hd | hd
      · right; simp at hd; omega
      · left; exact hd
    rcases this with he | he
    · simp [headLen, he]
    · have hn0 : n = 0 := by omega
      simp [hn0]
termination_by (sizeOf v, 0)

/-- A well-typed head region has exactly the head length of its schema. -/
theorem encHeads_length (ts : List AbiType) (vs : List Value)
    (htc : typeCheckSeq ts vs = true) (hwf : wfSeq ts = true)
    (H a : Nat) :
    (encHeads H a ts vs).length = headsLen ts := by
  cases ts with
  | nil =>
    cases vs with
    | nil => simp [encHeads, headsLen]
    | cons v vs => simp [typeCheckSeq] at htc
  | cons t ts =>
    cases vs with
    | nil => simp [typeCheckSeq] at htc
    | cons v vs =>
      simp only [typeCheckSeq, Bool.and_eq_true] at htc
      simp only [wfSeq, Bool.and_eq_true] at hwf
      by_cases hdyn : isDynamic t = true
      · simp [encHeads, hdyn, word32_length, headsLen, headLen,
          encHeads_length ts vs htc.2 hwf.2 H (a + (encodeValue t v).length)]
      · simp only [Bool.not_eq_true] at hdyn
        simp [encHeads, hdyn, headsLen, headLen,
          encodeValue_length_static t v hdyn htc.1 hwf.1,
          encHeads_length ts vs htc.2 hwf.2 H a]
termination_by (sizeOf vs, 1)

end

mutual

/-- Every well-typed encoding is a whole number of 32-byte words. -/
theorem encodeValue_length_mod (t : AbiType) (v : Value)
    (htc : typeCheck t v = true) (hwf : wfType t = true) :
    (encodeValue t v).length % 32 = 0 := by
  cases t with
  | uintT bits =>
    cases v <;> simp [typeCheck] at htc
    simp [encodeValue, word32_length]
  | intT bits =>
    cases v <;> simp [typeCheck] at htc
    simp [encodeValue, word32_length]
  | addressT =>
    cases v <;> simp [typeCheck] at htc
    simp [encodeValue, htc.1]
  | boolT =>
    cases v <;> simp [typeCheck] at htc
    simp [encodeValue, word32_length]
  | fixedBytesT n =>
    cases v <;> simp [typeCheck] at htc
    simp only [wfType, Bool.and_eq_true, decide_eq_true_eq] at hwf
    simp [encodeValue, htc.1]
    omega
  | bytesT =>
    cases v <;> simp [typeCheck] at htc
    case vbytes bs =>
    have := padRight_mod bs
    simp [encodeValue, word32_length]
    omega
  | stringT =>
    cases v <;> simp [typeCheck] at htc
    case vstring bs =>
    have := padRight_mod bs
    simp [encodeValue, word32_length]
    omega
  | tupleT comps =>
    cases v <;> simp [typeCheck] at htc
    case vtuple vs =>
    simp only [wfType] at hwf
    rw [encodeValue]
    exact encodeSeq_length_mod comps vs htc hwf
  | fixedArrayT e n =>
    cases v <;> simp [typeCheck] at htc
    case varray vs =>
    simp only [wfType] at hwf
    rw [encodeValue]
    exact encodeSeq_length_mod _ vs htc.2 (wfSeq_replicate _ _ hwf)
  | sliceT e =>
    cases v <;> simp [typeCheck] at htc
    case varray vs =>
    simp only [wfType] at hwf
    rw [encodeValue]
    have := encodeSeq_length_mod _ vs htc.2 (wfSeq_replicate _ _ hwf)
    simp [word32_length]
    omega
termination_by (sizeOf v, 0)

/-- The block of a well-typed sequence is a whole number of words. -/
theorem encodeSeq_length_mod (ts : List AbiType) (vs : List Value)
    (htc : typeCheckSeq ts vs = true) (hwf : wfSeq ts = true) :
    (encodeSeq ts vs).length % 32 = 0 := by
  rw [encodeSeq, List.length_append]
  have h1 := encHeads_mod (headsLen ts) 0 ts vs htc hwf
  have h2 := encTails_mod ts vs htc hwf
  omega
termination_by (sizeOf vs, 3)

theorem encHeads_mod (H a : Nat) (ts : List AbiType) (vs : List Value)
    (htc : typeCheckSeq ts vs = true) (hwf : wfSeq ts = true) :
    (encHeads H a ts vs).length % 32 = 0 := by
  cases ts with
  | nil =>
    cases vs with
    | nil => simp [encHeads]
    | cons v vs => simp [typeCheckSeq] at htc
  | cons t ts =>
    cases vs with
    | nil => simp [typeCheckSeq] at htc
    | cons v vs =>
      simp only [typeCheckSeq, Bool.and_eq_true] at htc
      simp only [wfSeq, Bool.and_eq_true] at hwf
      by_cases hdyn : isDynamic t = true
      · have ih := encHeads_mod H (a + (encodeValue t v).length) ts vs htc.2 hwf.2
        simp [encHeads, hdyn, word32_length]
        omega
      · simp only [Bool.not_eq_true] at hdyn
        have ih := encHeads_mod H a ts vs htc.2 hwf.2
        have h1 := encodeValue_length_mod t v htc.1 hwf.1
        simp [encHeads, hdyn]
        omega
termination_by (sizeOf vs, 1)

theorem encTails_mod (ts : List AbiType) (vs : List Value)
    (htc : typeCheckSeq ts vs = true) (hwf : wfSeq ts = true) :
    (encTails ts vs).length % 32 = 0 := by
  cases ts with
  | nil =>
    cases vs with
    | nil => simp [encTails]
    | cons v vs => simp [typeCheckSeq] at htc
  | cons t ts =>
    cases vs with
    | nil => simp [typeCheckSeq] at htc
    | cons v vs =>
      simp only [typeCheckSeq, Bool.and_eq_true] at htc
      simp only [wfSeq, Bool.and_eq_true] at hwf
      have ih := encTails_mod ts vs htc.2 hwf.2
      by_cases hdyn : isDynamic t = true
      · have h1 := encodeValue_length_mod t v htc.1 hwf.1
        simp [encTails, hdyn]
        omega
      · simp only [Bool.not_eq_true] at hdyn
        simp [encTails, hdyn]
        omega
termination_by (sizeOf vs, 2)

end

/-! ## Decode/encode round trip -/

theorem readWord_start (R : List Nat) (x : Nat) (hx : x < 2 ^ 256) :
    readWord (word32 x ++ R) 0 = some x := by
  have h := readWord_append [] R x hx
  simpa using h

theorem anyDynamic_replicate_of_static (e : AbiType) (n : Nat)
    (hd : (decide (0 < n) && isDynamic e) = false) :
    anyDynamic (List.replicate n e) = false := by
  rcases Nat.eq_zero_or_pos n with hz | hp
  · subst hz; simp [anyDynamic]
  · have : isDynamic e = false := by
      simp only [Bool.and_eq_false_iff] at hd
      rcases hd with hd | hd
      · simp at hd; omega
      · exact hd
    exact anyDynamic_replicate _ _ this

theorem sizeOf_lt_vtuple (vs : List Value) : sizeOf vs < sizeOf (Value.vtuple vs) := by
  simp only [Value.vtuple.sizeOf_spec]
  omega

theorem sizeOf_lt_varray (vs : List Value) : sizeOf vs < sizeOf (Value.varray vs) := by
  simp only [Value.varray.sizeOf_spec]
  omega

theorem sizeOf_v_lt_cons (v : Value) (vs : List Value) : sizeOf v < sizeOf (v :: vs) := by
  simp only [List.cons.sizeOf_spec]
  omega

theorem sizeOf_vs_lt_cons (v : Value) (vs : List Value) : sizeOf vs < sizeOf (v :: vs) := by
  simp only [List.cons.sizeOf_spec]
  omega

/-- The round-trip induction: below any size bound `n`, (1) in-place
decoding inverts the encoding of a static value, (2) offset-directed
decoding inverts the encoding of a dynamic value, and (3) sequence
decoding inverts the sequence encoding inside its own block. -/
theorem dec_main (n : Nat) :
    (∀ (t : AbiType) (v : Value), sizeOf v < n →
      isDynamic t = false → typeCheck t v = true → wfType t = true →
      ∀ (pre post : List Nat),
        decodeArg t (pre ++ (encodeValue t v ++ post)) pre.length = some v) ∧
    (∀ (t : AbiType) (v : Value), sizeOf v < n →
      isDynamic t = true → typeCheck t v = true → wfType t = true →
      ∀ (block : List Nat) (h off : Nat) (post : List Nat),
        readWord block h = some off →
        block.drop off = encodeValue t v ++ post →
        (encodeValue t v).length < 2 ^ 256 →
        decodeArg t block h = some v) ∧
    (∀ (ts : List AbiType) (vs : List Value), sizeOf vs < n →
      typeCheckSeq ts vs = true → wfSeq ts = true →
      ∀ (headPre tailPre post : List Nat) (H : Nat),
        H = headPre.length + headsLen ts →
        (H + tailPre.length + (encTails ts vs).length < 2 ^ 256 ∨
          anyDynamic ts = false) →
        decodeSeq ts
          (headPre ++ (encHeads H tailPre.length ts vs ++
            (tailPre ++ (encTails ts vs ++ post)))) headPre.length = some vs) := by
  induction n using Nat.strong_induction_on with
  | _ n IH =>
  refine ⟨?_, ?_, ?_⟩
  ·
    intro t v hn hd htc hwf pre post
    cases t with
    | uintT bits =>
      cases v <;> simp [typeCheck] at htc
      case vuint n =>
      simp only [wfType, Bool.and_eq_true, decide_eq_true_eq] at hwf
      have hn : n < 2 ^ 256 :=
        lt_of_lt_of_le htc (Nat.pow_le_pow_right (by norm_num) hwf.1.2)
      rw [encodeValue, decodeArg, readWord_append pre post n hn]
      simp
    | intT bits =>
      cases v <;> simp [typeCheck] at htc
      case vint i =>
      simp only [wfType, Bool.and_eq_true, decide_eq_true_eq] at hwf
      have hble : (2 : Int) ^ (bits - 1) ≤ 2 ^ 255 := by
        apply pow_le_pow_right (by norm_num)
        omega
      have hi2 : i < (2 : Int) ^ 255 := lt_of_lt_of_le htc.2 hble
      have hi1 : -(2 : Int) ^ 255 ≤ i := le_trans (neg_le_neg hble) htc.1
      have hw : (i % (2 : Int) ^ 256).toNat < 2 ^ 256 := by omega
      rw [encodeValue, decodeArg, readWord_append pre post _ hw]
      simp only [Option.map_some']
      congr 1
      congr 1
      rw [intFromWord]
      split_ifs with hcond
      · omega
      · omega
    | addressT =>
      cases v <;> simp [typeCheck] at htc
      case vaddr bs =>
      have hlen : (List.replicate 12 0 ++ bs).length = 32 := by
        simp [htc.1]
      have hrb := readBytes_append pre (List.replicate 12 0 ++ bs) post
      rw [hlen] at hrb
      rw [encodeValue, decodeArg, hrb]
      simp only [Option.map_some']
      rw [drop_append_len (List.replicate 12 (0 : Nat)) bs 12 (by simp)]
    | boolT =>
      cases v <;> simp [typeCheck] at htc
      case vbool b =>
      cases b
      · rw [encodeValue, decodeArg]
        rw [show (if false = true then 1 else 0) = 0 from rfl,
          readWord_append pre post 0 (by norm_num)]
      · rw [encodeValue, decodeArg]
        rw [show (if true = true then 1 else 0) = 1 from rfl,
          readWord_append pre post 1 (by norm_num)]
    | fixedBytesT n =>
      cases v <;> simp [typeCheck] at htc
      case vfixedBytes bs =>
      simp only [wfType, Bool.and_eq_true, decide_eq_true_eq] at hwf
      have hlen : (bs ++ List.replicate (32 - n) 0).length = 32 := by
        simp [htc.1]
        omega
      have hrb := readBytes_append pre (bs ++ List.replicate (32 - n) 0) post
      rw [hlen] at hrb
      rw [encodeValue, decodeArg, hrb]
      simp only [Option.map_some']
      congr 1
      rw [← htc.1, List.take_left]
    | bytesT => simp [isDynamic] at hd
    | stringT => simp [isDynamic] at hd
    | sliceT e => simp [isDynamic] at hd
    | tupleT comps =>
      cases v <;> simp [typeCheck] at htc
      case vtuple vs =>
      simp only [isDynamic] at hd
      simp only [wfType] at hwf
      have hT := encTails_allStatic comps vs hd
      have hE := encHeads_indep comps vs hd (headsLen comps) 0
        (pre.length + headsLen comps) 0
      have hds := (IH (sizeOf (Value.vtuple vs)) hn).2.2 comps vs
        (sizeOf_lt_vtuple vs) htc hwf pre [] post
        (pre.length + headsLen comps) (by simp) (Or.inr hd)
      rw [hT] at hds
      simp only [List.length_nil, List.nil_append, List.append_nil] at hds
      rw [decodeArg, if_neg (by simp [isDynamic, hd])]
      rw [encodeValue, encodeSeq, hT, List.append_nil, hE, hds]
      rfl
    | fixedArrayT e n =>
      cases v <;> simp [typeCheck] at htc
      case varray vs =>
      obtain ⟨hlen, htc2⟩ := htc
      subst hlen
      simp only [wfType] at hwf
      simp only [isDynamic] at hd
      have hall : anyDynamic (List.replicate vs.length e) = false :=
        anyDynamic_replicate_of_static e vs.length hd
      have hT := encTails_allStatic (List.replicate vs.length e) vs hall
      have hE := encHeads_indep (List.replicate vs.length e) vs hall
        (headsLen (List.replicate vs.length e)) 0
        (pre.length + headsLen (List.replicate vs.length e)) 0
      have hds := (IH (sizeOf (Value.varray vs)) hn).2.2
        (List.replicate vs.length e) vs (sizeOf_lt_varray vs) htc2
        (wfSeq_replicate _ _ hwf) pre [] post
        (pre.length + headsLen (List.replicate vs.length e)) (by simp)
        (Or.inr hall)
      rw [hT] at hds
      simp only [List.length_nil, List.nil_append, List.append_nil] at hds
      rw [decodeArg, if_neg (by simp [isDynamic, hd])]
      rw [encodeValue, encodeSeq, hT, List.append_nil, hE, hds]
      rfl
  ·
    intro t v hn hd htc hwf block h off post hread hdrop hsz
    cases t with
    | uintT bits => simp [isDynamic] at hd
    | intT bits => simp [isDynamic] at hd
    | addressT => simp [isDynamic] at hd
    | boolT => simp [isDynamic] at hd
    | fixedBytesT n => simp [isDynamic] at hd
    | bytesT =>
      cases v <;> simp [typeCheck] at htc
      case vbytes bs =>
      rw [encodeValue] at hdrop
      rw [List.append_assoc] at hdrop
      rw [show padRight bs ++ post =
        bs ++ (List.replicate ((32 - bs.length % 32) % 32) 0 ++ post) by
          simp [padRight]] at hdrop
      have hrw : readWord (block.drop off) 0 = some bs.length := by
        rw [hdrop]
        exact readWord_start _ _ htc.2
      have hrb : readBytes (block.drop off) 32 bs.length = some bs := by
        rw [hdrop]
        have h := readBytes_append (word32 bs.length)
          bs (List.replicate ((32 - bs.length % 32) % 32) 0 ++ post)
        rw [word32_length] at h
        exact h
      simp [decodeArg, hread, hrw, hrb]
    | stringT =>
      cases v <;> simp [typeCheck] at htc
      case vstring bs =>
      rw [encodeValue] at hdrop
      rw [List.append_assoc] at hdrop
      rw [show padRight bs ++ post =
        bs ++ (List.replicate ((32 - bs.length % 32) % 32) 0 ++ post) by
          simp [padRight]] at hdrop
      have hrw : readWord (block.drop off) 0 = some bs.length := by
        rw [hdrop]
        exact readWord_start _ _ htc.2
      have hrb : readBytes (block.drop off) 32 bs.length = some bs := by
        rw [hdrop]
        have h := readBytes_append (word32 bs.length)
          bs (List.replicate ((32 - bs.length % 32) % 32) 0 ++ post)
        rw [word32_length] at h
        exact h
      simp [decodeArg, hread, hrw, hrb]
    | sliceT e =>
      cases v <;> simp [typeCheck] at htc
      case varray xs =>
      simp only [wfType] at hwf
      rw [encodeValue] at hdrop hsz
      rw [List.append_assoc] at hdrop
      have hrw : readWord (block.drop off) 0 = some xs.length := by
        rw [hdrop]
        exact readWord_start _ _ htc.1
      have hhl := encHeads_length (List.replicate xs.length e) xs htc.2
        (wfSeq_replicate _ _ hwf) (headsLen (List.replicate xs.length e)) 0
      have hsz2 : headsLen (List.replicate xs.length e) + 0 +
          (encTails (List.replicate xs.length e) xs).length < 2 ^ 256 := by
        rw [List.length_append, word32_length, encodeSeq, List.length_append,
          hhl] at hsz
        omega
      have hds := (IH (sizeOf (Value.varray xs)) hn).2.2
        (List.replicate xs.length e) xs (sizeOf_lt_varray xs) htc.2
        (wfSeq_replicate _ _ hwf) [] [] post
        (headsLen (List.replicate xs.length e)) (by simp) (Or.inl hsz2)
      simp only [List.length_nil, List.nil_append] at hds
      have hdecode : decodeSeq (List.replicate xs.length e)
          ((block.drop off).drop 32) 0 = some xs := by
        rw [hdrop, drop_append_len _ _ 32 (word32_length _),
          encodeSeq, List.append_assoc]
        exact hds
      have hdecode2 : decodeSeq (List.replicate xs.length e)
          (List.drop (off + 32) block) 0 = some xs := by
        have h3 : List.drop 32 (List.drop off block) = List.drop (off + 32) block := by
          rw [List.drop_drop]
        rw [← h3]
        exact hdecode
      simp [decodeArg, hread, hrw, hdecode2]
    | tupleT comps =>
      cases v <;> simp [typeCheck] at htc
      case vtuple vs =>
      simp only [wfType] at hwf
      rw [encodeValue] at hdrop hsz
      have hhl := encHeads_length comps vs htc hwf (headsLen comps) 0
      have hsz2 : headsLen comps + 0 + (encTails comps vs).length < 2 ^ 256 := by
        rw [encodeSeq, List.length_append, hhl] at hsz
        omega
      have hds := (IH (sizeOf (Value.vtuple vs)) hn).2.2 comps vs
        (sizeOf_lt_vtuple vs) htc hwf [] [] post
        (headsLen comps) (by simp) (Or.inl hsz2)
      simp only [List.length_nil, List.nil_append] at hds
      have hdecode : decodeSeq comps (block.drop off) 0 = some vs := by
        rw [hdrop, encodeSeq, List.append_assoc]
        exact hds
      simp [decodeArg, hd, hread, hdecode]
    | fixedArrayT e n =>
      cases v <;> simp [typeCheck] at htc
      case varray vs =>
      obtain ⟨hlen, htc2⟩ := htc
      subst hlen
      simp only [wfType] at hwf
      rw [encodeValue] at hdrop hsz
      have hhl := encHeads_length (List.replicate vs.length e) vs htc2
        (wfSeq_replicate _ _ hwf) (headsLen (List.replicate vs.length e)) 0
      have hsz2 : headsLen (List.replicate vs.length e) + 0 +
          (encTails (List.replicate vs.length e) vs).length < 2 ^ 256 := by
        rw [encodeSeq, List.length_append, hhl] at hsz
        omega
      have hds := (IH (sizeOf (Value.varray vs)) hn).2.2
        (List.replicate vs.length e) vs (sizeOf_lt_varray vs) htc2
        (wfSeq_replicate _ _ hwf) [] [] post
        (headsLen (List.replicate vs.length e)) (by simp) (Or.inl hsz2)
      simp only [List.length_nil, List.nil_append] at hds
      have hdecode : decodeSeq (List.replicate vs.length e)
          (block.drop off) 0 = some vs := by
        rw [hdrop, encodeSeq, List.append_assoc]
        exact hds
      simp [decodeArg, hd, hread, hdecode]
  ·
    intro ts vs hn htc hwf headPre tailPre post H hH hsz
    cases ts with
    | nil =>
      cases vs with
      | nil => simp [decodeSeq]
      | cons v vs => simp [typeCheckSeq] at htc
    | cons t ts =>
      cases vs with
      | nil => simp [typeCheckSeq] at htc
      | cons v vs =>
        simp only [typeCheckSeq, Bool.and_eq_true] at htc
        simp only [wfSeq, Bool.and_eq_true] at hwf
        have hhl : (encHeads H tailPre.length (t :: ts) (v :: vs)).length =
            headsLen (t :: ts) :=
          encHeads_length _ _ (by simp [typeCheckSeq, htc.1, htc.2])
            (by simp [wfSeq, hwf.1, hwf.2]) _ _
        by_cases hdyn : isDynamic t = true
        · -- dynamic first argument
          have htails : encTails (t :: ts) (v :: vs) =
              encodeValue t v ++ encTails ts vs := by
            simp [encTails, hdyn]
          have hheads : encHeads H tailPre.length (t :: ts) (v :: vs) =
              word32 (H + tailPre.length) ++
                encHeads H (tailPre.length + (encodeValue t v).length) ts vs := by
            simp [encHeads, hdyn]
          have hsz1 : H + tailPre.length +
              (encTails (t :: ts) (v :: vs)).length < 2 ^ 256 := by
            rcases hsz with h | h
            · exact h
            · rw [anyDynamic] at h; simp [hdyn] at h
          rw [htails, List.length_append] at hsz1
          have hofflt : H + tailPre.length < 2 ^ 256 := by omega
          have hLlt : (encodeValue t v).length < 2 ^ 256 := by omega
          rw [htails, hheads]
          -- the head word read
          have hread : readWord
              (headPre ++ ((word32 (H + tailPre.length) ++
                encHeads H (tailPre.length + (encodeValue t v).length) ts vs) ++
                (tailPre ++ ((encodeValue t v ++ encTails ts vs) ++ post))))
              headPre.length = some (H + tailPre.length) := by
            rw [show headPre ++ ((word32 (H + tailPre.length) ++
                encHeads H (tailPre.length + (encodeValue t v).length) ts vs) ++
                (tailPre ++ ((encodeValue t v ++ encTails ts vs) ++ post))) =
              headPre ++ (word32 (H + tailPre.length) ++
                (encHeads H (tailPre.length + (encodeValue t v).length) ts vs ++
                  (tailPre ++ ((encodeValue t v ++ encTails ts vs) ++ post)))) by
              simp [List.append_assoc]]
            exact readWord_append _ _ _ hofflt
          -- the offset target
          have hdroplem : (headPre ++ ((word32 (H + tailPre.length) ++
                encHeads H (tailPre.length + (encodeValue t v).length) ts vs) ++
                (tailPre ++ ((encodeValue t v ++ encTails ts vs) ++ post)))).drop
              (H + tailPre.length) =
              encodeValue t v ++ (encTails ts vs ++ post) := by
            rw [show headPre ++ ((word32 (H + tailPre.length) ++
                encHeads H (tailPre.length + (encodeValue t v).length) ts vs) ++
                (tailPre ++ ((encodeValue t v ++ encTails ts vs) ++ post))) =
              (headPre ++ (word32 (H + tailPre.length) ++
                encHeads H (tailPre.length + (encodeValue t v).length) ts vs) ++
                tailPre) ++ (encodeValue t v ++ (encTails ts vs ++ post)) by
              simp [List.append_assoc]]
            apply drop_append_len
            rw [← hheads]
            simp only [List.length_append, hhl]
            rw [hH]
          have hargFn := (IH (sizeOf (v :: vs)) hn).2.1 t v
            (sizeOf_v_lt_cons v vs) hdyn htc.1 hwf.1
          have harg : decodeArg t
              (headPre ++ ((word32 (H + tailPre.length) ++
                encHeads H (tailPre.length + (encodeValue t v).length) ts vs) ++
                (tailPre ++ ((encodeValue t v ++ encTails ts vs) ++ post))))
              headPre.length = some v :=
            hargFn _ headPre.length
              (H + tailPre.length) (encTails ts vs ++ post) hread hdroplem hLlt
          -- recursive sequence decode
          have hH2 : H = (headPre ++ word32 (H + tailPre.length)).length +
              headsLen ts := by
            simp only [List.length_append, word32_length]
            rw [hH]
            simp [headsLen, headLen, hdyn]
            omega
          have hsz2 : H + (tailPre ++ encodeValue t v).length +
              (encTails ts vs).length < 2 ^ 256 ∨ anyDynamic ts = false := by
            left
            simp only [List.length_append]
            omega
          have hrecFn := (IH (sizeOf (v :: vs)) hn).2.2 ts vs
            (sizeOf_vs_lt_cons v vs) htc.2 hwf.2
          have hrec := hrecFn
            (headPre ++ word32 (H + tailPre.length))
            (tailPre ++ encodeValue t v) post H hH2 hsz2
          rw [show (tailPre ++ encodeValue t v).length =
              tailPre.length + (encodeValue t v).length by simp] at hrec
          rw [show (headPre ++ word32 (H + tailPre.length)) ++
              (encHeads H (tailPre.length + (encodeValue t v).length) ts vs ++
                ((tailPre ++ encodeValue t v) ++ (encTails ts vs ++ post))) =
            headPre ++ ((word32 (H + tailPre.length) ++
              encHeads H (tailPre.length + (encodeValue t v).length) ts vs) ++
              (tailPre ++ ((encodeValue t v ++ encTails ts vs) ++ post))) by
            simp [List.append_assoc]] at hrec
          rw [show (headPre ++ word32 (H + tailPre.length)).length =
              headPre.length + 32 by simp [word32_length]] at hrec
          -- assemble
          rw [decodeSeq]
          rw [show headLen t = 32 by simp [headLen, hdyn]]
          rw [harg, hrec]
        · -- static first argument
          simp only [Bool.not_eq_true] at hdyn
          have htails : encTails (t :: ts) (v :: vs) = encTails ts vs := by
            simp [encTails, hdyn]
          have hheads : encHeads H tailPre.length (t :: ts) (v :: vs) =
              encodeValue t v ++ encHeads H tailPre.length ts vs := by
            simp [encHeads, hdyn]
          rw [htails, hheads]
          have hlenv := encodeValue_length_static t v hdyn htc.1 hwf.1
          have harg : decodeArg t
              (headPre ++ ((encodeValue t v ++
                encHeads H tailPre.length ts vs) ++
                (tailPre ++ (encTails ts vs ++ post)))) headPre.length =
              some v := by
            rw [show headPre ++ ((encodeValue t v ++
                encHeads H tailPre.length ts vs) ++
                (tailPre ++ (encTails ts vs ++ post))) =
              headPre ++ (encodeValue t v ++
                (encHeads H tailPre.length ts vs ++
                  (tailPre ++ (encTails ts vs ++ post)))) by
              simp [List.append_assoc]]
            exact (IH (sizeOf (v :: vs)) hn).1 t v
              (sizeOf_v_lt_cons v vs) hdyn htc.1 hwf.1 headPre _
          have hH2 : H = (headPre ++ encodeValue t v).length + headsLen ts := by
            simp only [List.length_append, hlenv]
            rw [hH]
            simp [headsLen, headLen, hdyn]
            omega
          have hsz2 : H + tailPre.length + (encTails ts vs).length < 2 ^ 256 ∨
              anyDynamic ts = false := by
            rcases hsz with h | h
            · left; rw [htails] at h; exact h
            · right
              rw [anyDynamic, Bool.or_eq_false_iff] at h
              exact h.2
          have hrec := (IH (sizeOf (v :: vs)) hn).2.2 ts vs
            (sizeOf_vs_lt_cons v vs) htc.2 hwf.2
            (headPre ++ encodeValue t v) tailPre post H hH2 hsz2
          rw [show (headPre ++ encodeValue t v) ++
              (encHeads H tailPre.length ts vs ++
                (tailPre ++ (encTails ts vs ++ post))) =
            headPre ++ ((encodeValue t v ++
              encHeads H tailPre.length ts vs) ++
              (tailPre ++ (encTails ts vs ++ post))) by
            simp [List.append_assoc]] at hrec
          rw [show (headPre ++ encodeValue t v).length =
              headPre.length + (encodeValue t v).length by simp] at hrec
          rw [decodeSeq]
          rw [show headLen t = (encodeValue t v).length by
            simp [headLen, hdyn, hlenv]]
          rw [harg, hrec]

/-- In-place decoding inverts the encoding of a static value, wherever the
encoding sits inside a larger block. -/
theorem dec_static (t : AbiType) (v : Value)
    (hd : isDynamic t = false) (htc : typeCheck t v = true)
    (hwf : wfType t = true) (pre post : List Nat) :
    decodeArg t (pre ++ (encodeValue t v ++ post)) pre.length = some v :=
  (dec_main (sizeOf v + 1)).1 t v (Nat.lt_succ_self _) hd htc hwf pre post

/-- Offset-directed decoding inverts the encoding of a dynamic value. -/
theorem dec_dyn (t : AbiType) (v : Value)
    (hd : isDynamic t = true) (htc : typeCheck t v = true)
    (hwf : wfType t = true) (block : List Nat) (h off : Nat)
    (post : List Nat)
    (hread : readWord block h = some off)
    (hdrop : block.drop off = encodeValue t v ++ post)
    (hsz : (encodeValue t v).length < 2 ^ 256) :
    decodeArg t block h = some v :=
  (dec_main (sizeOf v + 1)).2.1 t v (Nat.lt_succ_self _) hd htc hwf
    block h off post hread hdrop hsz

/-- Decoding a sequence from its own block inverts the sequence encoding. -/
theorem dec_seq (ts : List AbiType) (vs : List Value)
    (htc : typeCheckSeq ts vs = true) (hwf : wfSeq ts = true)
    (headPre tailPre post : List Nat) (H : Nat)
    (hH : H = headPre.length + headsLen ts)
    (hsz : H + tailPre.length + (encTails ts vs).length < 2 ^ 256 ∨
      anyDynamic ts = false) :
    decodeSeq ts
      (headPre ++ (encHeads H tailPre.length ts vs ++
        (tailPre ++ (encTails ts vs ++ post)))) headPre.length = some vs :=
  (dec_main (sizeOf vs + 1)).2.2 ts vs (Nat.lt_succ_self _) htc hwf
    headPre tailPre post H hH hsz

/-! ## Canonical type strings (spec §3, §4.1) -/

mutual

/-- Modelled from the spec: the canonical textual form of a type (the type
descriptor's `String()`): `uint256`, `(uint256,uint256)`,
`(uint256,uint256)[5][]`, … -/
def typeString : AbiType → String
  | .uintT b => "uint" ++ toString b
  | .intT b => "int" ++ toString b
  | .addressT => "address"
  | .boolT => "bool"
  | .fixedBytesT k => "bytes" ++ toString k
  | .bytesT => "bytes"
  | .stringT => "string"
  | .tupleT comps => "(" ++ typeStringList comps ++ ")"
  | .fixedArrayT e k => typeString e ++ "[" ++ toString k ++ "]"
  | .sliceT e => typeString e ++ "[]"

/-- Comma-joined canonical strings of tuple components. -/
def typeStringList : List AbiType → String
  | [] => ""
  | [t] => typeString t
  | t :: ts => typeString t ++ "," ++ typeStringList ts

end

/-- UTF-8 encoding of one character, the standard 1–4 byte forms. -/
def utf8Char (c : Char) : List Nat :=
  let n := c.toNat
  if n < 128 then [n]
  else if n < 2048 then [192 + n / 64, 128 + n % 64]
  else if n < 65536 then [224 + n / 4096, 128 + (n / 64) % 64, 128 + n % 64]
  else [240 + n / 262144, 128 + (n / 4096) % 64, 128 + (n / 64) % 64, 128 + n % 64]

/-- UTF-8 bytes of a string. -/
def strBytes (s : String) : List Nat :=
  s.data.foldr (fun c acc => utf8Char c ++ acc) []

/-! ## Descriptors and the registry (source: `Mccmod`, `Event`, `ABI`) -/

/-- An argument of a function or event (spec §3). -/
structure Argument where
  name : String
  type : AbiType
  indexed : Bool
  deriving Repr

/-- The `Mccmod` descriptor from the source. -/
structure Mccmod where
  Name : String
  Const : Bool
  Inputs : List Argument
  Outputs : List Argument
  deriving Repr

/-- The `Event` descriptor from the source. -/
structure Event where
  Name : String
  Anonymous : Bool
  Inputs : List Argument
  deriving Repr

/-- `strings.Join(xs, sep)` of the source. -/
def stringsJoin (sep : String) : List String → String
  | [] => ""
  | [s] => s
  | s :: ss => s ++ sep ++ stringsJoin sep ss

/-- `Mccmod.Sig` from the source: the canonical signature string,
`name(type1,type2,...)` over the inputs' canonical type strings. -/
def Mccmod.Sig (m : Mccmod) : String :=
  m.Name ++ "(" ++ stringsJoin "," (m.Inputs.map fun a => typeString a.type) ++ ")"

/-- `Mccmod.Id` from the source: the first 4 bytes of the injected
256-bit hash of the signature's UTF-8 bytes
(`crypto.Keccak256([]byte(sig))[:4]`); `h` is the injected `hash256`. -/
def Mccmod.Id (h : List Nat → List Nat) (m : Mccmod) : List Nat :=
  (h (strBytes (Mccmod.Sig m))).take 4

/-- `Mccmod.String` from the source: the human-readable rendering
`function name(type name, ...) [constant ]returns(type [name], ...)`. -/
def Mccmod.render (m : Mccmod) : String :=
  "function " ++ m.Name ++ "(" ++
    stringsJoin ", " (m.Inputs.map fun a => typeString a.type ++ " " ++ a.name) ++
    ") " ++ (if m.Const then "constant " else "") ++ "returns(" ++
    stringsJoin ", " (m.Outputs.map fun a =>
      typeString a.type ++ (if a.name.length > 0 then " " ++ a.name else "")) ++ ")"

/-- The spec's own signature formula (§4.4): `name(type1,type2,...)` built
from the canonical Type strings of the inputs. -/
def joinComma : List String → String
  | [] => ""
  | [s] => s
  | s :: ss => s ++ "," ++ joinComma ss

/-- Canonical signature as the spec words it (§4.4). -/
def canonicalSignature (m : Mccmod) : String :=
  m.Name ++ "(" ++ joinComma (m.Inputs.map fun a => typeString a.type) ++ ")"

/-- Selector as the spec words it (§4.4): first 4 bytes of
`hash256(utf8(signature))`. -/
def specSelector (h : List Nat → List Nat) (m : Mccmod) : List Nat :=
  (h (strBytes (canonicalSignature m))).take 4

/-- Error taxonomy of the spec (§7), as far as the embedded operations
distinguish outcomes. -/
inductive AbiError where
  | decodingError
  | encodingError
  | notFound
  deriving Repr, DecidableEq

/-- Association-list lookup: the Go map, whose keys stay unique here by
construction. -/
def lookupName {α : Type} (key : String) : List (String × α) → Option α
  | [] => none
  | (k, v) :: rest => if k = key then some v else lookupName key rest

/-- The `ABI` registry from the source. -/
structure ABI where
  Constructor : Mccmod
  Mccmods : List (String × Mccmod)
  Events : List (String × Event)
  deriving Repr

/-- Modelled from the spec (§4.2): `Arguments.Pack` — the values must
match the schema's argument count and types, else an `EncodingError` with
no bytes emitted; on success the head/tail block of §4.2. -/
def argumentsPack (args : List Argument) (vals : List Value) :
    Except AbiError (List Nat) :=
  if typeCheckSeq (args.map fun a => a.type) vals then
    .ok (encodeSeq (args.map fun a => a.type) vals)
  else .error .encodingError

/-- Modelled from the spec (§4.3): `Arguments.Unpack` — fails with
`DecodingError` if the input is empty or its length is not a multiple of
32 (head-only heuristic check applied before structural decoding), then
decodes one value per argument, failing on any out-of-range offset or
length. -/
def argumentsUnpack (args : List Argument) (data : List Nat) :
    Except AbiError (List Value) :=
  if data.length = 0 ∨ data.length % 32 ≠ 0 then .error .decodingError
  else
    match decodeSeq (args.map fun a => a.type) data 0 with
    | some vs => .ok vs
    | none => .error .decodingError

/-- Modelled from the spec (§4.3): the name-keyed variant; an argument
with an empty declared name is not addressable in the map form. -/
def argumentsUnpackIntoMap (args : List Argument) (data : List Nat) :
    Except AbiError (List (String × Value)) :=
  (argumentsUnpack args data).map fun vs =>
    (List.zip args vs).filterMap fun p =>
      if p.1.name = "" then none else some (p.1.name, p.2)

/-- `ABI.Pack` from the source: the constructor (empty name) packs only
its input arguments with no selector; any other name resolves among
`Mccmods` and prefixes the 4-byte selector; an unregistered name is an
error with no bytes. -/
def ABI.Pack (h : List Nat → List Nat) (abi : ABI) (name : String)
    (args : List Value) : Except AbiError (List Nat) :=
  if name = "" then argumentsPack abi.Constructor.Inputs args
  else
    match lookupName name abi.Mccmods with
    | none => .error .notFound
    | some m =>
      match argumentsPack m.Inputs args with
      | .ok enc => .ok (Mccmod.Id h m ++ enc)
      | .error e => .error e

/-- `ABI.Unpack` from the source: empty input is rejected first; the name
resolves among functions (whose outputs are decoded, after the
multiple-of-32 check) and only then among events (whose inputs are
decoded); otherwise a not-found error. -/
def ABI.Unpack (abi : ABI) (name : String) (data : List Nat) :
    Except AbiError (List Value) :=
  if data.length = 0 then .error .decodingError
  else
    match lookupName name abi.Mccmods with
    | some m =>
      if data.length % 32 ≠ 0 then .error .decodingError
      else argumentsUnpack m.Outputs data
    | none =>
      match lookupName name abi.Events with
      | some e => argumentsUnpack e.Inputs data
      | none => .error .notFound

/-- `ABI.UnpackIntoMap` from the source: same resolution as `Unpack`, into
a name-keyed mapping. -/
def ABI.UnpackIntoMap (abi : ABI) (name : String) (data : List Nat) :
    Except AbiError (List (String × Value)) :=
  if data.length = 0 then .error .decodingError
  else
    match lookupName name abi.Mccmods with
    | some m =>
      if data.length % 32 ≠ 0 then .error .decodingError
      else argumentsUnpackIntoMap m.Outputs data
    | none =>
      match lookupName name abi.Events with
      | some e => argumentsUnpackIntoMap e.Inputs data
      | none => .error .notFound

/-- The scan of `MccmodById`: first registered function whose id equals
the given 4 bytes. -/
def findById (h : List Nat → List Nat) (idb : List Nat) :
    List (String × Mccmod) → Option Mccmod
  | [] => none
  | (_, m) :: rest => if Mccmod.Id h m = idb then some m else findById h idb rest

/-- `ABI.MccmodById` from the source: data shorter than 4 bytes is
rejected before any lookup; otherwise the functions are scanned for one
whose `Id` equals the first 4 bytes. -/
def ABI.MccmodById (h : List Nat → List Nat) (abi : ABI) (sigdata : List Nat) :
    Except AbiError Mccmod :=
  if sigdata.length < 4 then .error .notFound
  else
    match findById h (sigdata.take 4) abi.Mccmods with
    | some m => .ok m
    | none => .error .notFound

/-! ## Registry construction (source: `UnmarshalJSON`) -/

/-- One parsed record of the schema document (spec §6). -/
structure Field where
  ftype : String
  name : String
  constant : Bool
  anonymous : Bool
  inputs : List Argument
  outputs : List Argument
  deriving Repr

/-- The collision loop of `UnmarshalJSON`: take the bare name when free,
else `name0`, `name1`, … until an unused key appears.  The source's loop
is unbounded; a free candidate always exists among the first
`m.length + 1` suffixes, so the bounded scan computes the same key. -/
def disambiguate {α : Type} (m : List (String × α)) (base : String) : String :=
  if (lookupName base m).isNone then base
  else
    match (List.range (m.length + 1)).find?
        (fun i => (lookupName (base ++ toString i) m).isNone) with
    | some i => base ++ toString i
    | none => base

def emptyMccmod : Mccmod := { Name := "", Const := false, Inputs := [], Outputs := [] }

/-- `UnmarshalJSON` from the source: fold over the document fields in
order.  A `constructor` record replaces the constructor (inputs only); a
`function` (or typeless) record and an `event` record are inserted under
their disambiguated key, which is also stored in the descriptor's `Name`;
other record types are ignored. -/
def loadFields : List Field → ABI → ABI
  | [], abi => abi
  | f :: fs, abi =>
    let abi2 :=
      if f.ftype = "constructor" then
        { abi with Constructor :=
          { Name := "", Const := false, Inputs := f.inputs, Outputs := [] } }
      else if f.ftype = "function" ∨ f.ftype = "" then
        let nm := disambiguate abi.Mccmods f.name
        { abi with Mccmods := abi.Mccmods ++
          [(nm, { Name := nm, Const := f.constant,
                  Inputs := f.inputs, Outputs := f.outputs })] }
      else if f.ftype = "event" then
        let nm := disambiguate abi.Events f.name
        { abi with Events := abi.Events ++
          [(nm, { Name := nm, Anonymous := f.anonymous, Inputs := f.inputs })] }
      else abi
    loadFields fs abi2

/-- Registry construction from a parsed document. -/
def registryOf (fields : List Field) : ABI :=
  loadFields fields { Constructor := emptyMccmod, Mccmods := [], Events := [] }

/-! ## The type-string parser (spec §4.1) -/

/-- Raw argument record of a schema document: the type as written plus the
optional tuple components. -/
inductive RawArg where
  | mk (name : String) (typeStr : String) (components : List RawArg)

/-- Decimal number, all digits required. -/
def parseNatDigits (cs : List Char) : Option Nat :=
  if cs.isEmpty then none
  else if cs.all Char.isDigit then
    some (cs.foldl (fun acc c => acc * 10 + (c.toNat - 48)) 0)
  else none

/-- Modelled from the spec (§4.1): parse a type's textual notation.  Array
suffixes are parsed right to left (`T[5][]` is a dynamic array of fixed
arrays of 5 `T`); `uint`/`int` without a width default to 256 bits;
`tuple` takes the caller-supplied component types; out-of-range widths and
malformed brackets fail.  `fuel` only bounds the recursion; at most one
bracket group is consumed per step, so `cs.length + 1` always suffices. -/
def parseTypeFuel : Nat → List Char → List AbiType → Option AbiType
  | 0, _, _ => none
  | fuel + 1, cs, comps =>
    match cs.reverse with
    | ']' :: rest =>
      let digitsRev := rest.takeWhile (fun c => c ≠ '[')
      match rest.drop digitsRev.length with
      | '[' :: innerRev =>
        if digitsRev.isEmpty then
          (parseTypeFuel fuel innerRev.reverse comps).map .sliceT
        else
          match parseNatDigits digitsRev.reverse with
          | some k =>
            (parseTypeFuel fuel innerRev.reverse comps).map
              (fun e => .fixedArrayT e k)
          | none => none
      | _ => none
    | _ =>
      let s := String.mk cs
      if s = "address" then some .addressT
      else if s = "bool" then some .boolT
      else if s = "string" then some .stringT
      else if s = "bytes" then some .bytesT
      else if s = "tuple" then some (.tupleT comps)
      else if s = "uint" then some (.uintT 256)
      else if s = "int" then some (.intT 256)
      else if cs.take 4 = ['u', 'i', 'n', 't'] then
        match parseNatDigits (cs.drop 4) with
        | some b =>
          if 0 < b ∧ b ≤ 256 ∧ b % 8 = 0 then some (.uintT b) else none
        | none => none
      else if cs.take 3 = ['i', 'n', 't'] then
        match parseNatDigits (cs.drop 3) with
        | some b =>
          if 0 < b ∧ b ≤ 256 ∧ b % 8 = 0 then some (.intT b) else none
        | none => none
      else if cs.take 5 = ['b', 'y', 't', 'e', 's'] then
        match parseNatDigits (cs.drop 5) with
        | some k => if 0 < k ∧ k ≤ 32 then some (.fixedBytesT k) else none
        | none => none
      else none

/-- Parse a type string given already-parsed tuple component types. -/
def parseType (s : String) (comps : List AbiType) : Option AbiType :=
  parseTypeFuel (s.data.length + 1) s.data comps

mutual

/-- Parse one raw argument: components first, then the type string. -/
def parseArg : RawArg → Option Argument
  | .mk name typeStr components =>
    match parseComps components with
    | some ctys =>
      match parseType typeStr ctys with
      | some t => some { name := name, type := t, indexed := false }
      | none => none
    | none => none

/-- Parse the component list of a tuple argument, keeping the types. -/
def parseComps : List RawArg → Option (List AbiType)
  | [] => some []
  | a :: as =>
    match parseArg a, parseComps as with
    | some arg, some rest => some (arg.type :: rest)
    | _, _ => none

end

/-- Parse an ordered argument list. -/
def parseArgs : List RawArg → Option (List Argument)
  | [] => some []
  | a :: as =>
    match parseArg a, parseArgs as with
    | some x, some xs => some (x :: xs)
    | _, _ => none

/-- Raw record of a schema document before type parsing. -/
structure RawField where
  ftype : String
  name : String
  constant : Bool
  inputs : List RawArg
  outputs : List RawArg

/-- Parse one raw record. -/
def elabField (f : RawField) : Option Field :=
  match parseArgs f.inputs, parseArgs f.outputs with
  | some ins, some outs =>
    some { ftype := f.ftype, name := f.name, constant := f.constant,
           anonymous := false, inputs := ins, outputs := outs }
  | _, _ => none

/-- Parse a whole raw document. -/
def elabDoc : List RawField → Option (List Field)
  | [] => some []
  | f :: fs =>
    match elabField f, elabDoc fs with
    | some x, some xs => some (x :: xs)
    | _, _ => none

/-! ## The concrete schema of spec §8 (the `mccmoddata` document) -/

/-- The `{x : uint256, y : uint256}` tuple components of §8. -/
def xyComponents : List RawArg :=
  [.mk "x" "uint256" [], .mk "y" "uint256" []]

/-- The schema document of spec §8. -/
def mccmoddata : List RawField :=
  [{ ftype := "function", name := "balance", constant := true,
     inputs := [], outputs := [] },
   { ftype := "function", name := "send", constant := false,
     inputs := [.mk "amount" "uint256" []], outputs := [] },
   { ftype := "function", name := "transfer", constant := false,
     inputs := [.mk "from" "address" [], .mk "to" "address" [],
                .mk "value" "uint256" []],
     outputs := [.mk "success" "bool" []] },
   { ftype := "function", name := "tuple", constant := false,
     inputs := [.mk "a" "tuple" xyComponents], outputs := [] },
   { ftype := "function", name := "tupleSlice", constant := false,
     inputs := [.mk "a" "tuple[]" xyComponents], outputs := [] },
   { ftype := "function", name := "tupleArray", constant := false,
     inputs := [.mk "a" "tuple[5]" xyComponents], outputs := [] },
   { ftype := "function", name := "complexTuple", constant := false,
     inputs := [.mk "a" "tuple[5][]" xyComponents], outputs := [] }]

/-- The §8 registry, when the document parses. -/
def mccmodRegistry : Option ABI := (elabDoc mccmoddata).map registryOf

/-! ## Shared auxiliary facts and concrete instances for the claims -/

theorem stringsJoin_eq_joinComma (l : List String) :
    stringsJoin "," l = joinComma l := by
  induction l with
  | nil => rfl
  | cons s ss ih =>
    cases ss with
    | nil => rfl
    | cons s2 ss2 =>
      simp [stringsJoin, joinComma, ih]

/-- A concrete stand-in for the injected `hash256`, used to instantiate
witnesses: 32 bytes derived from the input's byte sum and length. -/
def hashStub (bs : List Nat) : List Nat :=
  (List.range 32).map
    (fun i => (i + bs.foldl (fun a b => a + b) 0 + 7 * bs.length) % 256)

theorem hashStub_length (bs : List Nat) : (hashStub bs).length = 32 := by
  simp [hashStub]

theorem findById_sound (h : List Nat → List Nat) (idb : List Nat)
    (l : List (String × Mccmod)) (m : Mccmod)
    (hf : findById h idb l = some m) :
    Mccmod.Id h m = idb ∧ m ∈ l.map Prod.snd := by
  induction l with
  | nil => simp [findById] at hf
  | cons p rest ih =>
    rw [findById] at hf
    by_cases he : Mccmod.Id h p.2 = idb
    · rw [if_pos he] at hf
      cases hf
      exact ⟨he, by simp⟩
    · rw [if_neg he] at hf
      obtain ⟨h1, h2⟩ := ih hf
      exact ⟨h1, by simp [h2]⟩

theorem findById_complete (h : List Nat → List Nat) (idb : List Nat)
    (l : List (String × Mccmod))
    (hex : ∃ p ∈ l, Mccmod.Id h p.2 = idb) :
    ∃ m, findById h idb l = some m := by
  induction l with
  | nil => simp at hex
  | cons p rest ih =>
    rw [findById]
    by_cases he : Mccmod.Id h p.2 = idb
    · exact ⟨p.2, by rw [if_pos he]⟩
    · rw [if_neg he]
      apply ih
      rcases hex with ⟨q, hq, hqid⟩
      rcases List.mem_cons.mp hq with hq1 | hq2
      · subst hq1; exact absurd hqid he
      · exact ⟨q, hq2, hqid⟩

theorem findById_none (h : List Nat → List Nat) (idb : List Nat)
    (l : List (String × Mccmod))
    (hall : ∀ p ∈ l, Mccmod.Id h p.2 ≠ idb) :
    findById h idb l = none := by
  induction l with
  | nil => rfl
  | cons p rest ih =>
    rw [findById, if_neg (hall p (by simp))]
    exact ih fun q hq => hall q (by simp [hq])

/-- A string never equals itself with a digit appended. -/
theorem ne_append_zero (n : String) : ¬(n = n ++ "0") := by
  intro h
  have h1 := congrArg String.length h
  rw [String.length_append] at h1
  have h0 : ("0" : String).length = 1 := rfl
  omega

/-- Concrete registry used by witnesses: function `f`, and events `f`
(shadowed) and `e`. -/
def wmF : Mccmod :=
  { Name := "f", Const := false,
    Inputs := [{ name := "x", type := .uintT 256, indexed := false }],
    Outputs := [{ name := "y", type := .boolT, indexed := false }] }

def weF : Event :=
  { Name := "f", Anonymous := false,
    Inputs := [{ name := "v", type := .uintT 256, indexed := false }] }

def weE : Event :=
  { Name := "e", Anonymous := false, Inputs := [] }

def wReg : ABI :=
  { Constructor := emptyMccmod,
    Mccmods := [("f", wmF)],
    Events := [("f", weF), ("e", weE)] }

/-! ## Claims -/

/-- C1, counterexample: the claim "for every argument schema and every
positional list of well-typed values, `Unpack(Pack(values)) == values`"
fails at the empty schema with the empty value list: `Pack` yields the
empty byte string, which the decoder's length guard (§4.3) rejects with a
`DecodingError` instead of returning the empty value list. -/
theorem abiC1_roundtrip_counterexample :
    argumentsPack [] [] = Except.ok [] ∧
    argumentsUnpack [] [] = Except.error AbiError.decodingError := by
  constructor
  · simp [argumentsPack, typeCheckSeq, encodeSeq, encHeads, encTails]
  · rfl

/-- C1, amended: for every argument schema and every positional list of
well-typed values whose encoding is non-empty (in particular, whenever the
schema has at least one argument of nonzero encoded size) and of
representable size, decoding the bytes produced by encoding the values
yields the original values: `Unpack(Pack(values)) == values`.  When the
encoding is empty (empty schema, or only zero-size static arguments) the
decoder's length guard rejects it instead. -/
theorem abiC1_roundtrip (args : List Argument) (vals : List Value)
    (enc : List Nat)
    (hpack : argumentsPack args vals = .ok enc)
    (hwf : wfSeq (args.map fun a => a.type) = true)
    (hne : enc ≠ [])
    (hsz : enc.length < 2 ^ 256) :
    argumentsUnpack args enc = .ok vals := by
  unfold argumentsPack at hpack
  by_cases htc : typeCheckSeq (args.map fun a => a.type) vals = true
  · rw [if_pos htc] at hpack
    have henc : enc = encodeSeq (args.map fun a => a.type) vals := by
      cases hpack
      rfl
    subst henc
    have hmod := encodeSeq_length_mod (args.map fun a => a.type) vals htc hwf
    have hlen0 : (encodeSeq (args.map fun a => a.type) vals).length ≠ 0 := by
      intro h0
      exact hne (List.length_eq_zero.mp h0)
    unfold argumentsUnpack
    rw [if_neg (by omega)]
    have hheads := encHeads_length (args.map fun a => a.type) vals htc hwf
      (headsLen (args.map fun a => a.type)) 0
    have hsz2 : headsLen (args.map fun a => a.type) + 0 +
        (encTails (args.map fun a => a.type) vals).length < 2 ^ 256 := by
      rw [encodeSeq, List.length_append, hheads] at hsz
      omega
    have hds := dec_seq (args.map fun a => a.type) vals htc hwf [] [] []
      (headsLen (args.map fun a => a.type)) (by simp) (Or.inl hsz2)
    simp only [List.length_nil, List.nil_append, List.append_nil] at hds
    rw [encodeSeq, hds]
  · rw [if_neg htc] at hpack
    cases hpack

/-- Concrete encoded length for the C1 witness. -/
theorem abiC1_concrete_len :
    (encodeSeq [.uintT 256, .stringT] [.vuint 7, .vstring [104, 105]]).length = 128 := by
  simp [encodeSeq, encHeads, encTails, encodeValue, headsLen, headLen,
    isDynamic, staticSize, word32_length, padRight]

/-- C1 witness: the amended round trip at a concrete two-argument schema
(a `uint256` and a `string`). -/
theorem abiC1_roundtrip_witness :
    argumentsUnpack
      [{ name := "a", type := .uintT 256, indexed := false },
       { name := "b", type := .stringT, indexed := false }]
      (encodeSeq [.uintT 256, .stringT] [.vuint 7, .vstring [104, 105]]) =
    .ok [.vuint 7, .vstring [104, 105]] :=
  abiC1_roundtrip
    [{ name := "a", type := .uintT 256, indexed := false },
     { name := "b", type := .stringT, indexed := false }]
    [.vuint 7, .vstring [104, 105]] _ rfl rfl
    (by
      intro hc
      have hl := congrArg List.length hc
      rw [abiC1_concrete_len] at hl
      exact absurd hl (by decide))
    (by
      rw [abiC1_concrete_len]
      decide)

/-- C2: for every registry, every name registered in it (as a function or
as an event), and every input whose length is 0 or not a multiple of 32,
both `Unpack` and `UnpackIntoMap` return a `DecodingError`; the guard
fires before any structural decoding (by construction of the model: the
error is produced without invoking `decodeSeq`, and the result does not
depend on the registered schema's shape). -/
theorem abiC2_length_guard (abi : ABI) (name : String) (data : List Nat)
    (hreg : (∃ m, lookupName name abi.Mccmods = some m) ∨
            (∃ e, lookupName name abi.Events = some e))
    (hbad : data.length = 0 ∨ data.length % 32 ≠ 0) :
    ABI.Unpack abi name data = .error .decodingError ∧
    ABI.UnpackIntoMap abi name data = .error .decodingError := by
  by_cases h0 : data.length = 0
  · simp [ABI.Unpack, ABI.UnpackIntoMap, h0]
  · have hmod : data.length % 32 ≠ 0 := by
      rcases hbad with hb | hb
      · exact absurd hb h0
      · exact hb
    cases hfm : lookupName name abi.Mccmods with
    | some m =>
      simp [ABI.Unpack, ABI.UnpackIntoMap, h0, hfm, hmod]
    | none =>
      rcases hreg with ⟨m, hm⟩ | ⟨e, he⟩
      · rw [hfm] at hm
        cases hm
      · simp [ABI.Unpack, ABI.UnpackIntoMap, h0, hfm, he,
          argumentsUnpack, argumentsUnpackIntoMap, hmod, Except.map]

/-- C2 witness: the concrete registry, at the event-only name `e` with a
1-byte input. -/
theorem abiC2_length_guard_witness :
    ABI.Unpack wReg "e" [0] = .error .decodingError ∧
    ABI.UnpackIntoMap wReg "e" [0] = .error .decodingError :=
  abiC2_length_guard wReg "e" [0] (Or.inr ⟨weE, rfl⟩) (Or.inr (by decide))

/-- C4: for every function, the selector `Id` is exactly the first 4
bytes of the injected 256-bit hash of the UTF-8 bytes of the canonical
signature `name(type1,type2,...)` built from the inputs' canonical type
strings (conjuncts 1–3, including agreement with the spec-side formula
`specSelector`/`canonicalSignature`); the embedding is a pure function,
so repeated calls return identical values (conjuncts 4–5). -/
theorem abiC4_selector_spec (h : List Nat → List Nat) (m : Mccmod) :
    Mccmod.Id h m = (h (strBytes (Mccmod.Sig m))).take 4 ∧
    Mccmod.Sig m = canonicalSignature m ∧
    Mccmod.Id h m = specSelector h m ∧
    Mccmod.Sig m = Mccmod.Sig m ∧
    Mccmod.Id h m = Mccmod.Id h m := by
  have hsig : Mccmod.Sig m = canonicalSignature m := by
    unfold Mccmod.Sig canonicalSignature
    rw [stringsJoin_eq_joinComma]
  refine ⟨rfl, hsig, ?_, rfl, rfl⟩
  unfold Mccmod.Id specSelector
  rw [hsig]

/-- C7: in the §8 registry, the tuple-typed functions' canonical
signatures render tuples as parenthesized comma-joined component types
with array suffixes outside. -/
theorem abiC7_tuple_signatures :
    (mccmodRegistry.bind fun r => (lookupName "tuple" r.Mccmods).map Mccmod.Sig) =
      some "tuple((uint256,uint256))" ∧
    (mccmodRegistry.bind fun r => (lookupName "tupleArray" r.Mccmods).map Mccmod.Sig) =
      some "tupleArray((uint256,uint256)[5])" ∧
    (mccmodRegistry.bind fun r => (lookupName "complexTuple" r.Mccmods).map Mccmod.Sig) =
      some "complexTuple((uint256,uint256)[5][])" := by
  refine ⟨rfl, rfl, rfl⟩

/-- C8: in the §8 registry, `transfer`'s canonical signature and its
human-readable rendering are exactly as specified; `balance` additionally
shows the `constant ` marker appearing exactly when the function is
constant. -/
theorem abiC8_transfer_rendering :
    (mccmodRegistry.bind fun r => (lookupName "transfer" r.Mccmods).map Mccmod.Sig) =
      some "transfer(address,address,uint256)" ∧
    (mccmodRegistry.bind fun r => (lookupName "transfer" r.Mccmods).map Mccmod.render) =
      some "function transfer(address from, address to, uint256 value) returns(bool success)" ∧
    (mccmodRegistry.bind fun r => (lookupName "balance" r.Mccmods).map Mccmod.render) =
      some "function balance() constant returns()" := by
  refine ⟨rfl, rfl, rfl⟩

theorem disambiguate_empty {α : Type} (n : String) :
    disambiguate ([] : List (String × α)) n = n := by
  simp [disambiguate, lookupName]

theorem disambiguate_single {α : Type} (n : String) (v : α) :
    disambiguate [(n, v)] n = n ++ "0" := by
  have hne : ¬(n = n ++ "0") := ne_append_zero n
  unfold disambiguate
  rw [if_neg (by simp [lookupName])]
  rw [show List.range ([(n, v)].length + 1) = [0, 1] from rfl]
  have ht : toString (0 : Nat) = "0" := rfl
  simp [List.find?, lookupName, hne, ht]

/-- The document refuting C3 as universally stated: an entry declared
`foo0` precedes two entries declared `foo`. -/
def fooDoc : List Field :=
  [{ ftype := "function", name := "foo0", constant := true, anonymous := false,
     inputs := [], outputs := [] },
   { ftype := "function", name := "foo", constant := false, anonymous := false,
     inputs := [], outputs := [] },
   { ftype := "function", name := "foo", constant := false, anonymous := false,
     inputs := [], outputs := [] }]

/-- C3, counterexample: the claim promises that each subsequent occurrence
of a duplicated name gets the declared name suffixed with an incrementing
integer starting at 0, so the second `foo` entry of `fooDoc` should be
keyed `foo0`.  The code instead skips suffixes that are already taken:
`foo0` keys the unrelated constant entry declared `foo0`, and the
duplicate `foo` entry is keyed `foo1`. -/
theorem abiC3_disambiguation_counterexample :
    (registryOf fooDoc).Mccmods.map Prod.fst = ["foo0", "foo", "foo1"] ∧
    lookupName "foo0" (registryOf fooDoc).Mccmods =
      some { Name := "foo0", Const := true, Inputs := [], Outputs := [] } ∧
    lookupName "foo1" (registryOf fooDoc).Mccmods =
      some { Name := "foo1", Const := false, Inputs := [], Outputs := [] } := by
  refine ⟨rfl, rfl, rfl⟩

/-- C3, amended: each subsequent occurrence of a duplicated declared name
receives the declared name suffixed with the smallest non-negative integer
that yields an unused key (so a declared name colliding with a generated
candidate shifts later suffixes); in the absence of such interference the
first occurrence keeps the bare name and the next occurrence gets suffix
0, in document order, and functions and events are disambiguated
independently in separate namespaces: for every name `n`, a document with
two function entries and two event entries all declared `n` yields
function keys `n`, `n0` and event keys `n`, `n0`, with the suffixed keys
also stored as the descriptors' names. -/
theorem abiC3_disambiguation_amended (n : String) (c1 c2 a1 a2 : Bool)
    (i1 i2 i3 i4 o1 o2 : List Argument) :
    (registryOf
      [{ ftype := "function", name := n, constant := c1, anonymous := false,
         inputs := i1, outputs := o1 },
       { ftype := "function", name := n, constant := c2, anonymous := false,
         inputs := i2, outputs := o2 },
       { ftype := "event", name := n, constant := false, anonymous := a1,
         inputs := i3, outputs := [] },
       { ftype := "event", name := n, constant := false, anonymous := a2,
         inputs := i4, outputs := [] }]).Mccmods =
      [(n, { Name := n, Const := c1, Inputs := i1, Outputs := o1 }),
       (n ++ "0", { Name := n ++ "0", Const := c2, Inputs := i2, Outputs := o2 })] ∧
    (registryOf
      [{ ftype := "function", name := n, constant := c1, anonymous := false,
         inputs := i1, outputs := o1 },
       { ftype := "function", name := n, constant := c2, anonymous := false,
         inputs := i2, outputs := o2 },
       { ftype := "event", name := n, constant := false, anonymous := a1,
         inputs := i3, outputs := [] },
       { ftype := "event", name := n, constant := false, anonymous := a2,
         inputs := i4, outputs := [] }]).Events =
      [(n, { Name := n, Anonymous := a1, Inputs := i3 }),
       (n ++ "0", { Name := n ++ "0", Anonymous := a2, Inputs := i4 })] := by
  constructor <;>
    simp [registryOf, loadFields, disambiguate_empty, disambiguate_single,
      lookupName]

/-- C5: packing with the empty name encodes exactly the constructor's
inputs with no selector; packing a registered nonempty name prefixes the
4-byte selector (4 bytes whenever the injected hash emits 32-byte
digests); packing an unregistered nonempty name fails with a not-found
error and produces no bytes. -/
theorem abiC5_pack (h : List Nat → List Nat) (abi : ABI) (name : String)
    (args : List Value)
    (hlen : ∀ bs, (h bs).length = 32) :
    ABI.Pack h abi "" args = argumentsPack abi.Constructor.Inputs args ∧
    (∀ m, name ≠ "" → lookupName name abi.Mccmods = some m →
      ABI.Pack h abi name args =
        (argumentsPack m.Inputs args).map (fun enc => Mccmod.Id h m ++ enc) ∧
      (Mccmod.Id h m).length = 4) ∧
    (name ≠ "" → lookupName name abi.Mccmods = none →
      ABI.Pack h abi name args = .error .notFound) := by
  refine ⟨?_, ?_, ?_⟩
  · simp [ABI.Pack]
  · intro m hne hm
    constructor
    · rw [ABI.Pack, if_neg hne, hm]
      cases hp : argumentsPack m.Inputs args <;> simp [hp, Except.map]
    · rw [Mccmod.Id, List.length_take, hlen]
      decide
  · intro hne hm
    rw [ABI.Pack, if_neg hne, hm]

/-- C5 witness: the concrete registry at the constructor, the registered
name `f`, and the unregistered name `g`. -/
theorem abiC5_pack_witness :
    ABI.Pack hashStub wReg "" [] = argumentsPack wReg.Constructor.Inputs [] ∧
    ABI.Pack hashStub wReg "f" [] =
      (argumentsPack wmF.Inputs []).map (fun enc => Mccmod.Id hashStub wmF ++ enc) ∧
    (Mccmod.Id hashStub wmF).length = 4 ∧
    ABI.Pack hashStub wReg "g" [] = .error .notFound :=
  ⟨(abiC5_pack hashStub wReg "f" [] hashStub_length).1,
   ((abiC5_pack hashStub wReg "f" [] hashStub_length).2.1 wmF (by decide) rfl).1,
   ((abiC5_pack hashStub wReg "f" [] hashStub_length).2.1 wmF (by decide) rfl).2,
   (abiC5_pack hashStub wReg "g" [] hashStub_length).2.2 (by decide) rfl⟩

/-- C6: for non-empty data, `Unpack` and `UnpackIntoMap` resolve the name
first among functions (the result depends only on the function's outputs,
so a function always shadows an event of the same name), then among
events, and fail with a not-found error when neither map holds the name. -/
theorem abiC6_unpack_resolution (abi : ABI) (name : String) (data : List Nat)
    (hne : data ≠ []) :
    (∀ m, lookupName name abi.Mccmods = some m →
      ABI.Unpack abi name data =
        (if data.length % 32 ≠ 0 then .error .decodingError
         else argumentsUnpack m.Outputs data) ∧
      ABI.UnpackIntoMap abi name data =
        (if data.length % 32 ≠ 0 then .error .decodingError
         else argumentsUnpackIntoMap m.Outputs data)) ∧
    (lookupName name abi.Mccmods = none →
      ∀ e, lookupName name abi.Events = some e →
      ABI.Unpack abi name data = argumentsUnpack e.Inputs data ∧
      ABI.UnpackIntoMap abi name data = argumentsUnpackIntoMap e.Inputs data) ∧
    (lookupName name abi.Mccmods = none →
      lookupName name abi.Events = none →
      ABI.Unpack abi name data = .error .notFound ∧
      ABI.UnpackIntoMap abi name data = .error .notFound) := by
  have h0 : ¬data.length = 0 := by
    intro hz
    exact hne (List.length_eq_zero.mp hz)
  refine ⟨?_, ?_, ?_⟩
  · intro m hm
    constructor
    · rw [ABI.Unpack, if_neg h0, hm]
    · rw [ABI.UnpackIntoMap, if_neg h0, hm]
  · intro hm e he
    constructor
    · rw [ABI.Unpack, if_neg h0, hm, he]
    · rw [ABI.UnpackIntoMap, if_neg h0, hm, he]
  · intro hm he
    constructor
    · rw [ABI.Unpack, if_neg h0, hm, he]
    · rw [ABI.UnpackIntoMap, if_neg h0, hm, he]

/-- C6 witness: the concrete registry at the function name `f` (also an
event name, and resolved as a function), the event-only name `e`, and the
unregistered name `x`, on a 1-byte input. -/
theorem abiC6_unpack_resolution_witness :
    ABI.Unpack wReg "f" [5] =
      (if ([5] : List Nat).length % 32 ≠ 0 then .error .decodingError
       else argumentsUnpack wmF.Outputs [5]) ∧
    ABI.Unpack wReg "e" [5] = argumentsUnpack weE.Inputs [5] ∧
    ABI.Unpack wReg "x" [5] = .error .notFound :=
  ⟨((abiC6_unpack_resolution wReg "f" [5] (by decide)).1 wmF rfl).1,
   ((abiC6_unpack_resolution wReg "e" [5] (by decide)).2.1 rfl weE rfl).1,
   ((abiC6_unpack_resolution wReg "x" [5] (by decide)).2.2 rfl rfl).1⟩

/-- C9: loading two function entries both declared `foo` with identical
inputs stores the suffixed key `foo0` as the second descriptor's own
`Name`, so its canonical signature is `foo0(...)` over the same input
types and its selector is the first 4 bytes of the hash of that
signature — the disambiguated name, not the declared name, determines the
selector, and the two selectors differ whenever the injected hash's first
4 bytes separate the two signatures (they are distinct strings; with the
real `hash256` this is how the duplicates obtain distinct selectors). -/
theorem abiC9_duplicate_selector (h : List Nat → List Nat) (c : Bool)
    (ins outs : List Argument) :
    lookupName "foo" (registryOf
      [{ ftype := "function", name := "foo", constant := c, anonymous := false,
         inputs := ins, outputs := outs },
       { ftype := "function", name := "foo", constant := c, anonymous := false,
         inputs := ins, outputs := outs }]).Mccmods =
      some { Name := "foo", Const := c, Inputs := ins, Outputs := outs } ∧
    lookupName "foo0" (registryOf
      [{ ftype := "function", name := "foo", constant := c, anonymous := false,
         inputs := ins, outputs := outs },
       { ftype := "function", name := "foo", constant := c, anonymous := false,
         inputs := ins, outputs := outs }]).Mccmods =
      some { Name := "foo0", Const := c, Inputs := ins, Outputs := outs } ∧
    Mccmod.Sig { Name := "foo0", Const := c, Inputs := ins, Outputs := outs } =
      "foo0" ++ "(" ++ stringsJoin "," (ins.map fun a => typeString a.type) ++ ")" ∧
    Mccmod.Sig { Name := "foo", Const := c, Inputs := ins, Outputs := outs } =
      "foo" ++ "(" ++ stringsJoin "," (ins.map fun a => typeString a.type) ++ ")" ∧
    Mccmod.Id h { Name := "foo0", Const := c, Inputs := ins, Outputs := outs } =
      (h (strBytes (Mccmod.Sig
        { Name := "foo0", Const := c, Inputs := ins, Outputs := outs }))).take 4 ∧
    ((h (strBytes (Mccmod.Sig
        { Name := "foo", Const := c, Inputs := ins, Outputs := outs }))).take 4 ≠
     (h (strBytes (Mccmod.Sig
        { Name := "foo0", Const := c, Inputs := ins, Outputs := outs }))).take 4 →
      Mccmod.Id h { Name := "foo", Const := c, Inputs := ins, Outputs := outs } ≠
      Mccmod.Id h { Name := "foo0", Const := c, Inputs := ins, Outputs := outs }) := by
  refine ⟨?_, ?_, rfl, rfl, rfl, ?_⟩
  · simp [registryOf, loadFields, disambiguate_empty, disambiguate_single,
      lookupName]
  · simp [registryOf, loadFields, disambiguate_empty, disambiguate_single,
      lookupName]
  · intro hsep heq
    exact hsep heq

/-- C9 witness: the duplicate pair at one `uint256` input, with the
concrete hash stand-in, whose first 4 bytes do separate the signatures
`foo(uint256)` and `foo0(uint256)`. -/
theorem abiC9_duplicate_selector_witness :
    lookupName "foo0" (registryOf
      [{ ftype := "function", name := "foo", constant := false, anonymous := false,
         inputs := [{ name := "x", type := .uintT 256, indexed := false }],
         outputs := [] },
       { ftype := "function", name := "foo", constant := false, anonymous := false,
         inputs := [{ name := "x", type := .uintT 256, indexed := false }],
         outputs := [] }]).Mccmods =
      some { Name := "foo0", Const := false,
             Inputs := [{ name := "x", type := .uintT 256, indexed := false }],
             Outputs := [] } ∧
    Mccmod.Id hashStub
      { Name := "foo", Const := false,
        Inputs := [{ name := "x", type := .uintT 256, indexed := false }],
        Outputs := [] } ≠
    Mccmod.Id hashStub
      { Name := "foo0", Const := false,
        Inputs := [{ name := "x", type := .uintT 256, indexed := false }],
        Outputs := [] } :=
  ⟨(abiC9_duplicate_selector hashStub false
      [{ name := "x", type := .uintT 256, indexed := false }] []).2.1,
   (abiC9_duplicate_selector hashStub false
      [{ name := "x", type := .uintT 256, indexed := false }] []).2.2.2.2.2
     (by decide)⟩

/-- C10: `MccmodById` rejects data shorter than 4 bytes with an error,
for every registry alike (no registered function is consulted); on data
of length at least 4 the result depends only on the first 4 bytes; a
successful lookup returns a registered function whose `Id` equals those
4 bytes; and the lookup succeeds exactly when some registered function
matches them. -/
theorem abiC10_mccmodById (h : List Nat → List Nat) (abi : ABI) :
    (∀ d : List Nat, d.length < 4 →
      ABI.MccmodById h abi d = .error .notFound) ∧
    (∀ d1 d2 : List Nat, 4 ≤ d1.length → 4 ≤ d2.length →
      d1.take 4 = d2.take 4 →
      ABI.MccmodById h abi d1 = ABI.MccmodById h abi d2) ∧
    (∀ d m, ABI.MccmodById h abi d = .ok m →
      Mccmod.Id h m = d.take 4 ∧ m ∈ abi.Mccmods.map Prod.snd) ∧
    (∀ d : List Nat, 4 ≤ d.length →
      ((∃ p ∈ abi.Mccmods, Mccmod.Id h p.2 = d.take 4) →
        ∃ m, ABI.MccmodById h abi d = .ok m) ∧
      ((∀ p ∈ abi.Mccmods, Mccmod.Id h p.2 ≠ d.take 4) →
        ABI.MccmodById h abi d = .error .notFound)) := by
  refine ⟨?_, ?_, ?_, ?_⟩
  · intro d hd
    rw [ABI.MccmodById, if_pos hd]
  · intro d1 d2 h1 h2 htake
    rw [ABI.MccmodById, ABI.MccmodById, if_neg (by omega), if_neg (by omega),
      htake]
  · intro d m hok
    rw [ABI.MccmodById] at hok
    by_cases hd : d.length < 4
    · rw [if_pos hd] at hok
      cases hok
    · rw [if_neg hd] at hok
      cases hf : findById h (d.take 4) abi.Mccmods with
      | some m2 =>
        rw [hf] at hok
        simp at hok
        subst hok
        exact findById_sound h (d.take 4) abi.Mccmods _ hf
      | none =>
        rw [hf] at hok
        simp at hok
  · intro d hd
    constructor
    · intro hex
      obtain ⟨m, hm⟩ := findById_complete h (d.take 4) abi.Mccmods hex
      refine ⟨m, ?_⟩
      rw [ABI.MccmodById, if_neg (by omega), hm]
    · intro hall
      rw [ABI.MccmodById, if_neg (by omega),
        findById_none h (d.take 4) abi.Mccmods hall]

/-- C10 witness: the concrete registry — a 2-byte input is rejected, and
two 5-byte inputs agreeing on their first 4 bytes give the same result. -/
theorem abiC10_mccmodById_witness :
    ABI.MccmodById hashStub wReg [0, 1] = .error .notFound ∧
    ABI.MccmodById hashStub wReg [9, 9, 9, 9, 1] =
      ABI.MccmodById hashStub wReg [9, 9, 9, 9, 2] :=
  ⟨(abiC10_mccmodById hashStub wReg).1 [0, 1] (by decide),
   (abiC10_mccmodById hashStub wReg).2.1 [9, 9, 9, 9, 1] [9, 9, 9, 9, 2]
     (by decide) (by decide) (by decide)⟩

end CcmAbi
